import Mathlib

/-!
Verification of the hunk-decomposition-and-replay engine of `git-ai`.

This file gives a shallow embedding of the core of the repository:

* `src/utils/hunk-parser.ts` — `parseDiffIntoHunks`, `parseHunkHeader`;
* `src/utils/hunk-applier.ts` — `applyHunk`, `applyHunksToFile`,
  `applyHunksToWorkingDirectory`, `saveFileStates`, `restoreToWorkingState`;
* `src/hunk-commit-processor.ts` — `processHunkCommitGroup`,
  `processAllHunkCommitGroups`;
* `src/git.ts` — the effectful git calls (`resetFilesToHead`, `stageFiles`,
  `createCommit`, `unstageAll`) are external collaborators; they are modelled
  by an oracle choosing the outcome of every call, and by an effect trace
  interpreted against a working-tree state.

JavaScript specifics that the embedding keeps:
* `String.prototype.split("\n")` is `jsSplitLines` (returning `[""]` on the
  empty string);
* `Array.prototype.join("\n")` renders the JS value `undefined` as the empty
  string; array elements are only ever copied and joined, never inspected, so
  an `undefined` element pushed by `applyHunk` (reading `lines[-1]`) is
  modelled as `""`;
* `Array.prototype.sort` with a comparator is a stable sort;
* a JS `Map` preserves key insertion order; it is modelled as an association
  list with insert-or-overwrite-in-place semantics.
-/

namespace GitAI

/-! ## JS string primitives

The JS string operations used by the source are modelled by structurally
recursive functions over `String.data`, so that every definition evaluates by
kernel reduction. -/

/-- JS `s.startsWith(pre)`. -/
def jsStartsWith (s pre : String) : Bool :=
  pre.data.isPrefixOf s.data

/-- JS `s.substring(n)` (drop the first `n` UTF-16 units; identical to
dropping `n` characters on the inputs this code handles). -/
def jsDrop (s : String) (n : Nat) : String :=
  String.mk (s.data.drop n)

/-- Helper for `jsSplitLines`: accumulate the current line (reversed). -/
def splitLinesAux : List Char → List Char → List String
  | [], acc => [String.mk acc.reverse]
  | c :: cs, acc =>
    if c = '\n' then String.mk acc.reverse :: splitLinesAux cs []
    else splitLinesAux cs (c :: acc)

/-- JS `s.split("\n")`: e.g. `"" ↦ [""]`, `"a\nb" ↦ ["a", "b"]`,
`"a\n" ↦ ["a", ""]`. -/
def jsSplitLines (s : String) : List String :=
  splitLinesAux s.data []

/-- JS `lines.join("\n")`. -/
def jsJoinLines : List String → String
  | [] => ""
  | [s] => s
  | s :: rest => s ++ "\n" ++ jsJoinLines rest

/-- JS whitespace test for `trim` (the characters that occur in this code's
inputs). -/
def jsIsSpace (c : Char) : Bool :=
  c == ' ' || c == '\t' || c == '\n' || c == '\r'

/-- JS `s.trim()`. -/
def jsTrim (s : String) : String :=
  String.mk (((s.data.dropWhile jsIsSpace).reverse.dropWhile jsIsSpace).reverse)

/-! ## Data model (src/utils/hunk-parser.ts) -/

/-- `DiffHunk` from src/utils/hunk-parser.ts. -/
structure DiffHunk where
  file : String
  oldStart : Nat
  oldLines : Nat
  newStart : Nat
  newLines : Nat
  header : String
  lines : List String
  context : Option String := none
  deriving Repr, DecidableEq

/-- `FileHunks` from src/utils/hunk-parser.ts. -/
structure FileHunks where
  file : String
  hunks : List DiffHunk
  deriving Repr, DecidableEq

/-! ## Patch applier (src/utils/hunk-applier.ts) -/

/-- The suffix-copying loop of `applyHunk`:
`for (let i = afterHunkStart; i < lines.length; i++) result.push(lines[i]);`
where `afterHunkStart` may be negative (JS `lines[i]` is then `undefined`,
which `join` later renders as `""`). -/
def jsSuffix (lines : List String) (start : Int) : List String :=
  if start < 0 then List.replicate (-start).toNat "" ++ lines
  else lines.drop start.toNat

/-- The middle loop of `applyHunk`: walk the hunk's tagged lines, emitting
addition lines and context lines without their tag character and skipping
deletion lines (and any untagged line). -/
def emitHunkLines : List String → List String
  | [] => []
  | l :: ls =>
    if jsStartsWith l "+" then jsDrop l 1 :: emitHunkLines ls
    else if jsStartsWith l "-" then emitHunkLines ls
    else if jsStartsWith l " " then jsDrop l 1 :: emitHunkLines ls
    else emitHunkLines ls

/-- `applyHunk` from src/utils/hunk-applier.ts: copy the lines before
`oldStart`, emit the hunk's new side, then resume copying from just past the
hunk's declared old range. -/
def applyHunk (lines : List String) (hunk : DiffHunk) : List String :=
  lines.take (hunk.oldStart - 1) ++ emitHunkLines hunk.lines ++
    jsSuffix lines ((hunk.oldStart : Int) - 1 + (hunk.oldLines : Int))

/-- One step of a stable insertion sort realising
`[...hunks].sort((a, b) => b.oldStart - a.oldStart)`: descending by
`oldStart`, ties keeping input order. -/
def insertDesc (h : DiffHunk) : List DiffHunk → List DiffHunk
  | [] => [h]
  | x :: xs => if x.oldStart ≤ h.oldStart then h :: x :: xs else x :: insertDesc h xs

/-- Stable sort by descending `oldStart` (JS `sort` with a comparator is
stable). -/
def sortByOldStartDesc : List DiffHunk → List DiffHunk
  | [] => []
  | x :: xs => insertDesc x (sortByOldStartDesc xs)

/-- `applyHunksToFile` from src/utils/hunk-applier.ts. -/
def applyHunksToFile (originalContent : String) (hunks : List DiffHunk) : String :=
  let originalLines := jsSplitLines originalContent
  let sortedHunks := sortByOldStartDesc hunks
  jsJoinLines (sortedHunks.foldl applyHunk originalLines)

/-! ## Diff parsing (src/utils/hunk-parser.ts)

`parseHunkHeader` matches the JS regex
`/@@ -(\d+),?(\d*) \+(\d+),?(\d*) @@(.*)$/` against the header line.  The
matcher below is exact for this pattern: the only backtracking a JS engine
performs on it is over the two optional commas (`,?` preferring the comma),
because shrinking a greedy digit run always leaves a digit in front of a
literal `,`, ` ` or `@`, which can never match. -/

/-- Maximal digit run (`\d+` / `\d*`), returning the run and the rest. -/
def takeDigits : List Char → List Char × List Char
  | [] => ([], [])
  | c :: rest =>
    if c.isDigit then
      let p := takeDigits rest
      (c :: p.1, p.2)
    else ([], c :: rest)

/-- The five capture groups of the hunk-header regex. -/
structure HeaderGroups where
  g1 : List Char
  g2 : List Char
  g3 : List Char
  g4 : List Char
  g5 : List Char
  deriving Repr, DecidableEq

/-- Match the literal ` @@` then capture the rest of the line (`(.*)$`). -/
def matchHeaderClose (d1 d2 d3 d4 : List Char) : List Char → Option HeaderGroups
  | ' ' :: '@' :: '@' :: g5 => some ⟨d1, d2, d3, d4, g5⟩
  | _ => none

/-- Match ` \+(\d+),?(\d*)` then the close; the comma branch backtracks to
the comma-less branch on failure, as the JS engine does for `,?`. -/
def matchNewRange (d1 d2 : List Char) : List Char → Option HeaderGroups
  | ' ' :: '+' :: r0 =>
    let p := takeDigits r0
    if p.1.isEmpty then none
    else
      match p.2 with
      | ',' :: r1 =>
        let q := takeDigits r1
        (matchHeaderClose d1 d2 p.1 q.1 q.2) <|> matchHeaderClose d1 d2 p.1 [] p.2
      | r1 => matchHeaderClose d1 d2 p.1 [] r1
  | _ => none

/-- Attempt the whole regex at the head of `cs`. -/
def matchHunkHeaderAt (cs : List Char) : Option HeaderGroups :=
  match cs with
  | '@' :: '@' :: ' ' :: '-' :: r0 =>
    let p := takeDigits r0
    if p.1.isEmpty then none
    else
      match p.2 with
      | ',' :: r1 =>
        let q := takeDigits r1
        (matchNewRange p.1 q.1 q.2) <|> matchNewRange p.1 [] p.2
      | r1 => matchNewRange p.1 [] r1
  | _ => none

/-- JS `headerLine.match(...)`: first position (left to right) where the
pattern matches. -/
def scanHunkHeader : List Char → Option HeaderGroups
  | [] => none
  | c :: cs => (matchHunkHeaderAt (c :: cs)) <|> scanHunkHeader cs

/-- JS `parseInt` on a non-empty digit string. -/
def natOfDigits (ds : List Char) : Nat :=
  ds.foldl (fun acc c => acc * 10 + (c.toNat - 48)) 0

/-- `parseHunkHeader` from src/utils/hunk-parser.ts.  On no match it returns
the all-zero placeholder hunk.  Note the asymmetry kept from the source:
`oldLines` is `match[2] ? parseInt(match[2], 10) : 1` (so `"0"` gives `0`)
while `newLines` is `parseInt(match[4], 10) || 1` (so both `""` and `"0"`
give `1`). -/
def parseHunkHeader (headerLine : String) (file : String) : DiffHunk :=
  match scanHunkHeader headerLine.data with
  | none =>
    { file := file, oldStart := 0, oldLines := 0, newStart := 0, newLines := 0,
      header := headerLine, lines := [] }
  | some g =>
    let ctx := jsTrim (String.mk g.g5)
    { file := file
      oldStart := natOfDigits g.g1
      oldLines := if g.g2.isEmpty then 1 else natOfDigits g.g2
      newStart := natOfDigits g.g3
      newLines := if g.g4.isEmpty || natOfDigits g.g4 == 0 then 1 else natOfDigits g.g4
      header := headerLine
      lines := []
      context := if ctx == "" then none else some ctx }

/-- Parser state: the insertion-ordered `fileHunksMap` (a JS `Map`), the
current file, the hunk being accumulated and its collected lines. -/
structure ParseAcc where
  fileHunksMap : List (String × List DiffHunk)
  currentFile : Option String
  currentHunk : Option DiffHunk
  hunkLines : List String
  deriving Repr

/-- JS `fileHunksMap.get(k) || []`. -/
def mapGetD (m : List (String × List DiffHunk)) (k : String) : List DiffHunk :=
  match m.find? (fun p => p.1 == k) with
  | some p => p.2
  | none => []

/-- JS `fileHunksMap.set(k, v)`: overwrite in place, or append a new key. -/
def mapSet (m : List (String × List DiffHunk)) (k : String) (v : List DiffHunk) :
    List (String × List DiffHunk) :=
  match m with
  | [] => [(k, v)]
  | p :: t => if p.1 == k then (k, v) :: t else p :: mapSet t k v

/-- The repeated "save previous hunk if exists" block of
`parseDiffIntoHunks`. -/
def savePending (acc : ParseAcc) : ParseAcc :=
  match acc.currentHunk, acc.currentFile with
  | some h, some f =>
    let hunks := mapGetD acc.fileHunksMap f
    { acc with
      fileHunksMap := mapSet acc.fileHunksMap f (hunks ++ [{ h with lines := acc.hunkLines }]) }
  | _, _ => acc

/-- The loop body of `parseDiffIntoHunks`, with the source's branch order:
file header, file path, hunk header, then hunk-content collection. -/
def parseLineStep (acc : ParseAcc) (line : String) : ParseAcc :=
  if jsStartsWith line "diff --git " then
    let acc := savePending acc
    { acc with currentHunk := none, hunkLines := [] }
  else if jsStartsWith line "+++ b/" then
    { acc with currentFile := some (jsDrop line 6) }
  else if jsStartsWith line "@@" then
    let acc := savePending acc
    { acc with
      currentHunk := some (parseHunkHeader line (acc.currentFile.getD ""))
      hunkLines := [] }
  else if acc.currentHunk.isSome &&
      (jsStartsWith line "+" || jsStartsWith line "-" || jsStartsWith line " ") then
    { acc with hunkLines := acc.hunkLines ++ [line] }
  else acc

/-- `parseDiffIntoHunks` from src/utils/hunk-parser.ts. -/
def parseDiffIntoHunks (diffOutput : String) : List FileHunks :=
  let acc := (jsSplitLines diffOutput).foldl parseLineStep ⟨[], none, none, []⟩
  let acc := savePending acc
  acc.fileHunksMap.map (fun p => { file := p.1, hunks := p.2 })

/-- `FileState` from src/utils/hunk-applier.ts. -/
structure FileState where
  file : String
  originalContent : String
  workingContent : String
  deriving Repr, DecidableEq

/-! ## Commit orchestrator (src/hunk-commit-processor.ts)

The git binding (`src/git.ts`) and the filesystem are external collaborators.
Every effectful call the orchestrator makes is recorded in a trace
(`GitEffect`), and the outcome of every call (did the underlying `git`
invocation succeed or throw?) is chosen by an oracle, so the theorems
quantify over all possible success/failure patterns.  The `setGitUser` block
of `processHunkCommitGroup` is elided: its errors are absorbed, it does not
touch the working tree, and it affects no return path. -/

/-- `HunkRef` from src/types.ts.  A JS `hunkIndex` that is negative or not an
integer resolves to `undefined` exactly like an out-of-range `Nat`, so `Nat`
suffices. -/
structure HunkRef where
  file : String
  hunkIndex : Nat
  deriving Repr, DecidableEq

/-- `HunkCommitGroup` (imported by src/hunk-commit-processor.ts): a
classifier-proposed group referencing hunks by `(file, hunkIndex)`. -/
structure HunkCommitGroup where
  number : Nat
  description : String
  hunks : List HunkRef
  commitMessage : String
  commitBody : Option String := none
  deriving Repr, DecidableEq

/-- The record pushed onto `commitResults` by `processAllHunkCommitGroups`. -/
structure CommitResult where
  number : Nat
  description : String
  files : List String
  message : String
  success : Bool
  error : Option String := none
  deriving Repr, DecidableEq

/-- The `ProcessResult` interface of src/hunk-commit-processor.ts. -/
structure ProcessResult where
  success : Bool
  filesProcessed : List String
  message : Option String := none
  error : Option String := none
  deriving Repr, DecidableEq

/-- The hunk-collection loop of `processHunkCommitGroup`: resolve each ref
against the registry, dropping (with a warning) refs whose file is absent or
whose index is out of range. -/
def collectHunks (allFileHunks : List FileHunks) : List HunkRef → List DiffHunk
  | [] => []
  | r :: rs =>
    match allFileHunks.find? (fun fh => fh.file == r.file) with
    | none => collectHunks allFileHunks rs
    | some fh =>
      match fh.hunks[r.hunkIndex]? with
      | none => collectHunks allFileHunks rs
      | some h => h :: collectHunks allFileHunks rs

/-- Resolution of a single ref against the registry (the two lookups of the
collection loop). -/
def resolveRef (allFileHunks : List FileHunks) (r : HunkRef) : Option DiffHunk :=
  (allFileHunks.find? (fun fh => fh.file == r.file)).bind (fun fh => fh.hunks[r.hunkIndex]?)

/-- JS `Array.from(new Set(xs))`: deduplicate keeping first occurrences. -/
def dedupKeepFirst (l : List String) : List String :=
  l.foldl (fun acc x => if acc.contains x then acc else acc ++ [x]) []

/-- The committed-hunk key `` `${h.file}:${h.hunkIndex}` ``. -/
def mkKey (file : String) (hunkIndex : Nat) : String :=
  file ++ ":" ++ toString hunkIndex

/-- JS `` `${commitMessage}\n\n${commitBody}` `` guarded by
`group.commitBody ?` (so an empty body is falsy and dropped). -/
def fullMessage (g : HunkCommitGroup) : String :=
  match g.commitBody with
  | some b => if b == "" then g.commitMessage else g.commitMessage ++ "\n\n" ++ b
  | none => g.commitMessage

/-- JS `result.message || group.commitMessage` (empty string is falsy). -/
def jsOrString (o : Option String) (d : String) : String :=
  match o with
  | some m => if m == "" then d else m
  | none => d

/-- One recorded external call, with the oracle-chosen outcome of the
underlying git/filesystem operation (`ok := false` models a call that threw). -/
inductive GitEffect where
  | resetToHead (files : List String) (ok : Bool)
  | applyWorking (hunks : List DiffHunk) (ok : Bool)
  | stage (files : List String) (ok : Bool)
  | commit (message : String) (ok : Bool)
  | unstage (ok : Bool)
  | restoreWorking (states : List FileState) (ok : Bool)
  deriving Repr, DecidableEq

/-- Oracle outcomes for the external calls made while processing one group.
`throws` models an exception escaping the loop body from outside the guarded
calls (the claim C3 scenario). -/
structure GroupOutcome where
  resetOk : Bool := true
  applyOk : Bool := true
  stageOk : Bool := true
  commitOk : Bool := true
  unstageOk : Bool := true
  throws : Bool := false
  deriving Repr, DecidableEq

/-- Oracle for one whole run. -/
structure RunOracle where
  group : Nat → GroupOutcome
  finalResetOk : Bool := true
  finalApplyOk : Bool := true
  finalRestoreOk : Bool := true

/-- `processHunkCommitGroup` from src/hunk-commit-processor.ts: collect the
group's hunks (dropping unresolvable refs), then reset the affected files
(failure absorbed), apply the hunks, stage, and commit, returning early with
`success: false` when apply, stage or commit throws. -/
def processHunkCommitGroup (oc : GroupOutcome) (group : HunkCommitGroup)
    (allFileHunks : List FileHunks) : ProcessResult × List GitEffect :=
  let hunksToApply := collectHunks allFileHunks group.hunks
  if hunksToApply.isEmpty then
    ({ success := false, filesProcessed := [] }, [])
  else
    let affectedFiles := dedupKeepFirst (hunksToApply.map (fun h => h.file))
    let resetEff := GitEffect.resetToHead affectedFiles oc.resetOk
    if !oc.applyOk then
      ({ success := false, filesProcessed := affectedFiles },
        [resetEff, .applyWorking hunksToApply false])
    else if !oc.stageOk then
      ({ success := false, filesProcessed := affectedFiles },
        [resetEff, .applyWorking hunksToApply true, .stage affectedFiles false])
    else if !oc.commitOk then
      ({ success := false, filesProcessed := affectedFiles,
         message := some group.commitMessage, error := some "commit error" },
        [resetEff, .applyWorking hunksToApply true, .stage affectedFiles true,
          .commit (fullMessage group) false])
    else
      ({ success := true, filesProcessed := affectedFiles,
         message := some group.commitMessage },
        [resetEff, .applyWorking hunksToApply true, .stage affectedFiles true,
          .commit (fullMessage group) true])

/-- The `commitResults.push({...})` record of the orchestrator loop. -/
def mkCommitResult (g : HunkCommitGroup) (res : ProcessResult) : CommitResult :=
  { number := g.number
    description := g.description
    files := res.filesProcessed
    message := jsOrString res.message g.commitMessage
    success := res.success
    error := res.error }

/-- The `try`-block loop of `processAllHunkCommitGroups`, starting at group
index `i`: accumulate commit results, committed-hunk keys and the effect
trace; a thrown exception (`throws`) aborts the loop with the state reached
so far. -/
def runGroupLoop (oracle : RunOracle) (allFileHunks : List FileHunks) :
    List HunkCommitGroup → Nat → List CommitResult × List String × List GitEffect × Bool
  | [], _ => ([], [], [], false)
  | g :: gs, i =>
    let oc := oracle.group i
    if oc.throws then ([], [], [], true)
    else
      let step := processHunkCommitGroup oc g allFileHunks
      let newKeys := if step.1.success then g.hunks.map (fun h => mkKey h.file h.hunkIndex) else []
      let rest := runGroupLoop oracle allFileHunks gs (i + 1)
      (mkCommitResult g step.1 :: rest.1,
        newKeys ++ rest.2.1,
        step.2 ++ [.unstage oc.unstageOk] ++ rest.2.2.1,
        rest.2.2.2)

/-- The `uncommittedHunks` computation of the `finally` block: every hunk of
the registry whose key was never marked committed, in registry order. -/
def computeUncommitted (allFileHunks : List FileHunks) (committed : List String) :
    List DiffHunk :=
  allFileHunks.foldr
    (fun fh acc =>
      (fh.hunks.enum.filterMap
        (fun p => if committed.contains (mkKey fh.file p.1) then none else some p.2)) ++ acc)
    []

/-- The effect suffix emitted by the `finally` block: reset every snapshotted
file to HEAD, replay the uncommitted hunks (skipped when the reset threw, or
when there are none), then write every snapshotted file back to its pre-run
working content (`restoreToWorkingState`); each sub-step's own failure is
absorbed. -/
def restorationTrace (oracle : RunOracle) (allFiles : List String)
    (uncommitted : List DiffHunk) (fileStates : List FileState) : List GitEffect :=
  [GitEffect.resetToHead allFiles oracle.finalResetOk] ++
    (if oracle.finalResetOk && !uncommitted.isEmpty then
      [GitEffect.applyWorking uncommitted oracle.finalApplyOk]
    else []) ++
    [GitEffect.restoreWorking fileStates oracle.finalRestoreOk]

/-- Everything `processAllHunkCommitGroups` produces or leaves behind:
the returned `commitResults` plus the run's observable state. -/
structure RunOutput where
  results : List CommitResult
  committedKeys : List String
  uncommitted : List DiffHunk
  fileStates : List FileState
  trace : List GitEffect
  threw : Bool
  deriving Repr

/-- The union of files referenced across all groups
(`Array.from(new Set(groups.flatMap(...)))`). -/
def allFilesOf (groups : List HunkCommitGroup) : List String :=
  dedupKeepFirst (groups.foldr (fun g acc => g.hunks.map (fun h => h.file) ++ acc) [])

/-- `saveFileStates` from src/utils/hunk-applier.ts: snapshot, per file, the
HEAD content (`git.show`, empty on failure — modelled by `head`) and the
on-disk working content (`wt`). -/
def saveFileStates (head wt : String → String) (files : List String) : List FileState :=
  files.map (fun f => { file := f, originalContent := head f, workingContent := wt f })

/-- `processAllHunkCommitGroups` from src/hunk-commit-processor.ts:
snapshot all referenced files, run the group loop inside `try`, and in
`finally` emit the restoration effects; the function rethrows after the
`finally` block when the loop threw (`threw = true`). -/
def processAllHunkCommitGroups (oracle : RunOracle) (groups : List HunkCommitGroup)
    (allFileHunks : List FileHunks) (head wt : String → String) : RunOutput :=
  let allFiles := allFilesOf groups
  let fileStates := saveFileStates head wt allFiles
  let loop := runGroupLoop oracle allFileHunks groups 0
  let uncommitted := computeUncommitted allFileHunks loop.2.1
  { results := loop.1
    committedKeys := loop.2.1
    uncommitted := uncommitted
    fileStates := fileStates
    trace := loop.2.2.1 ++ restorationTrace oracle allFiles uncommitted fileStates
    threw := loop.2.2.2 }

/-! ## Working-tree semantics of the effect trace

`applyHunksToWorkingDirectory` groups the given hunks by file and writes
`applyHunksToFile(HEAD content, hunks of that file)` to each file;
`resetFilesToHead` (src/git.ts) is `git checkout HEAD -- <files>`;
`restoreToWorkingState` writes each snapshotted `workingContent` verbatim.
`head f` models what `git show HEAD:f` returns during the run. -/

/-- The per-file hunk grouping of `applyHunksToWorkingDirectory` (a JS `Map`
keyed by file, preserving per-file hunk order). -/
def hunksForFile (hunks : List DiffHunk) (f : String) : List DiffHunk :=
  hunks.filter (fun h => h.file == f)

/-- Interpret one effect as a working-tree transformation (an effect whose
call threw, `ok := false`, leaves the tree unchanged — a partially-written
`applyHunksToWorkingDirectory` loop is not distinguished, since no claim
observes the tree between a failed call and the final restoration; staging
and commit effects do not touch file contents). -/
def stepEffect (head : String → String) (wt : String → String) :
    GitEffect → String → String
  | .resetToHead files ok => fun f => if ok && files.contains f then head f else wt f
  | .applyWorking hunks ok => fun f =>
      if ok && (hunks.map (fun h => h.file)).contains f then
        applyHunksToFile (head f) (hunksForFile hunks f)
      else wt f
  | .restoreWorking states ok => fun f =>
      if ok then
        match states.find? (fun s => s.file == f) with
        | some s => s.workingContent
        | none => wt f
      else wt f
  | _ => fun f => wt f

/-- Interpret a whole trace, left to right. -/
def runTrace (head wt : String → String) : List GitEffect → String → String
  | [] => wt
  | e :: es => runTrace head (stepEffect head wt e) es

/-- The registry viewed as a list of `(file, index, hunk)` entries. -/
def registryEntries (allFileHunks : List FileHunks) : List (String × Nat × DiffHunk) :=
  allFileHunks.foldr
    (fun fh acc => (fh.hunks.enum.map (fun p => (fh.file, p.1, p.2))) ++ acc) []

/-- The registry entries whose key is not marked committed — the entries the
`finally` block replays. -/
def restoredEntries (allFileHunks : List FileHunks) (committed : List String) :
    List (String × Nat × DiffHunk) :=
  (registryEntries allFileHunks).filter (fun e => !committed.contains (mkKey e.1 e.2.1))

/-! ## The content a well-formed diff describes (spec side)

The round-trip law (§8 of the spec) compares `applyHunksToFile` with the
content the diff itself describes.  `reconstructGo` follows the unified-diff
reading of a hunk list: copy old lines up to each hunk's `oldStart`, emit the
hunk's new side, skip its declared old range, and copy the tail after the
last hunk. -/

/-- The old side of a hunk's tagged lines (deletion and context lines,
untagged). -/
def hunkOldSide : List String → List String
  | [] => []
  | l :: ls =>
    if jsStartsWith l "+" then hunkOldSide ls
    else if jsStartsWith l "-" then jsDrop l 1 :: hunkOldSide ls
    else if jsStartsWith l " " then jsDrop l 1 :: hunkOldSide ls
    else hunkOldSide ls

/-- The new content described by hunks over old lines `o`, with `p` lines
already consumed. -/
def reconstructGo (o : List String) : Nat → List DiffHunk → List String
  | p, [] => o.drop p
  | p, h :: t =>
    (o.drop p).take (h.oldStart - 1 - p) ++ emitHunkLines h.lines ++
      reconstructGo o (h.oldStart - 1 + h.oldLines) t

/-- Well-formedness of a hunk list against old lines `o` from cursor `p`:
hunks sit at 1-based positions, in order, without overlap, within bounds,
and each hunk's old side is exactly the declared slice of `o`. -/
def chainWF (o : List String) : Nat → List DiffHunk → Bool
  | _, [] => true
  | p, h :: t =>
    decide (1 ≤ h.oldStart) && decide (p ≤ h.oldStart - 1) &&
      decide (h.oldStart - 1 + h.oldLines ≤ o.length) &&
      ((o.drop (h.oldStart - 1)).take h.oldLines == hunkOldSide h.lines) &&
      chainWF o (h.oldStart - 1 + h.oldLines) t

section Examples

/-- Concrete hunk used in sanity checks: modify line 2 of a 3-line file. -/
def exHunk : DiffHunk :=
  { file := "f.txt", oldStart := 1, oldLines := 3, newStart := 1, newLines := 3,
    header := "@@ -1,3 +1,3 @@", lines := [" a", "-b", "+X", " c"] }

example : applyHunksToFile "a\nb\nc\n" [exHunk] = "a\nX\nc\n" := by decide

/-- A one-file diff modifying line 2 of a 3-line file. -/
def exDiff : String :=
  "diff --git a/f.txt b/f.txt\n" ++
  "index 1111111..2222222 100644\n" ++
  "--- a/f.txt\n" ++
  "+++ b/f.txt\n" ++
  "@@ -1,3 +1,3 @@\n" ++
  " a\n" ++
  "-b\n" ++
  "+X\n" ++
  " c"

example : parseDiffIntoHunks exDiff = [{ file := "f.txt", hunks := [exHunk] }] := by decide

example :
    parseHunkHeader "@@ -0,0 +1 @@" "f.txt" =
      { file := "f.txt", oldStart := 0, oldLines := 0, newStart := 1, newLines := 1,
        header := "@@ -0,0 +1 @@", lines := [] } := by decide

example :
    (parseHunkHeader "@@ -10,5 +10,8 @@ function name" "f.txt").context = some "function name" := by
  decide

end Examples

/-! ## Basic lemmas about the applier -/

theorem jsSuffix_of_nonneg (lines : List String) (start : Int) (h : 0 ≤ start) :
    jsSuffix lines start = lines.drop start.toNat := by
  simp [jsSuffix, not_lt.mpr h]

theorem applyHunk_eq_take_emit_drop (lines : List String) (h : DiffHunk)
    (h1 : 1 ≤ h.oldStart) :
    applyHunk lines h =
      lines.take (h.oldStart - 1) ++ emitHunkLines h.lines ++
        lines.drop (h.oldStart - 1 + h.oldLines) := by
  have hnn : (0 : Int) ≤ (h.oldStart : Int) - 1 + (h.oldLines : Int) := by
    omega
  have htn : ((h.oldStart : Int) - 1 + (h.oldLines : Int)).toNat =
      h.oldStart - 1 + h.oldLines := by
    omega
  rw [applyHunk, jsSuffix_of_nonneg _ _ hnn, htn]

/-- Claim C7.  When a hunk's declared old range reaches past the end of the
available lines, `applyHunk` clips: every original line before `oldStart` is
copied (`take` stops at the end of the list), the new side is emitted, and
the out-of-range suffix copy contributes nothing — the function still
returns this result instead of performing any out-of-bounds access. -/
theorem applyHunk_clips (lines : List String) (h : DiffHunk)
    (hover : (lines.length : Int) ≤ (h.oldStart : Int) - 1 + (h.oldLines : Int)) :
    applyHunk lines h = lines.take (h.oldStart - 1) ++ emitHunkLines h.lines ∧
      (lines.length ≤ h.oldStart - 1 →
        applyHunk lines h = lines ++ emitHunkLines h.lines) := by
  have hnn : (0 : Int) ≤ (h.oldStart : Int) - 1 + (h.oldLines : Int) := by
    have : (0 : Int) ≤ (lines.length : Int) := by positivity
    omega
  have hlen : lines.length ≤ ((h.oldStart : Int) - 1 + (h.oldLines : Int)).toNat := by
    omega
  have hdrop : lines.drop (((h.oldStart : Int) - 1 + (h.oldLines : Int)).toNat) = [] :=
    List.drop_eq_nil_of_le hlen
  have hmain : applyHunk lines h = lines.take (h.oldStart - 1) ++ emitHunkLines h.lines := by
    rw [applyHunk, jsSuffix_of_nonneg _ _ hnn, hdrop, List.append_nil]
  refine ⟨hmain, fun hpre => ?_⟩
  rw [hmain, List.take_of_length_le hpre]

/-- Witness for C7: a hunk declaring old range 2..4 against a 2-line file is
clipped, and the result is total. -/
theorem applyHunk_clips_witness :
    applyHunk ["a", "b"]
        { file := "f", oldStart := 2, oldLines := 3, newStart := 2, newLines := 1,
          header := "@@ -2,3 +2,1 @@", lines := ["-b", "+Z"] } =
      ["a", "Z"] := by
  have hc := applyHunk_clips ["a", "b"]
    { file := "f", oldStart := 2, oldLines := 3, newStart := 2, newLines := 1,
      header := "@@ -2,3 +2,1 @@", lines := ["-b", "+Z"] } (by decide)
  rw [hc.1]
  decide

/-! ## The descending sort of `applyHunksToFile` -/

/-- Descending comparison used by the sort. -/
def oldGE (a b : DiffHunk) : Prop := b.oldStart ≤ a.oldStart

theorem insertDesc_perm (h : DiffHunk) (l : List DiffHunk) :
    List.Perm (insertDesc h l) (h :: l) := by
  induction l with
  | nil => simp [insertDesc]
  | cons x xs ih =>
    by_cases hc : x.oldStart ≤ h.oldStart
    · simp [insertDesc, hc]
    · simp only [insertDesc, if_neg hc]
      exact ((ih.cons x).trans (List.Perm.swap h x xs))

theorem sortByOldStartDesc_perm (l : List DiffHunk) :
    List.Perm (sortByOldStartDesc l) l := by
  induction l with
  | nil => simp [sortByOldStartDesc]
  | cons x xs ih =>
    exact (insertDesc_perm x (sortByOldStartDesc xs)).trans (ih.cons x)

theorem insertDesc_pairwise (h : DiffHunk) (l : List DiffHunk)
    (hl : l.Pairwise oldGE) : (insertDesc h l).Pairwise oldGE := by
  induction l with
  | nil => simp [insertDesc, oldGE]
  | cons x xs ih =>
    rcases List.pairwise_cons.mp hl with ⟨hx, hxs⟩
    by_cases hc : x.oldStart ≤ h.oldStart
    · simp only [insertDesc, if_pos hc]
      refine List.pairwise_cons.mpr ⟨?_, hl⟩
      intro b hb
      rcases List.mem_cons.mp hb with hb | hb
      · subst hb; exact hc
      · exact le_trans (hx b hb) hc
    · simp only [insertDesc, if_neg hc]
      refine List.pairwise_cons.mpr ⟨?_, ih hxs⟩
      intro b hb
      have hb' := (insertDesc_perm h xs).mem_iff.mp hb
      rcases List.mem_cons.mp hb' with hb' | hb'
      · subst hb'; exact le_of_not_le hc
      · exact hx b hb'

theorem sortByOldStartDesc_pairwise (l : List DiffHunk) :
    (sortByOldStartDesc l).Pairwise oldGE := by
  induction l with
  | nil => simp [sortByOldStartDesc]
  | cons x xs ih => exact insertDesc_pairwise x _ ih

/-- Two sorted lists that are permutations of each other, with pairwise
distinct keys, are equal. -/
theorem eq_of_perm_sorted_distinct :
    ∀ l₁ l₂ : List DiffHunk, List.Perm l₁ l₂ → l₁.Pairwise oldGE → l₂.Pairwise oldGE →
      l₁.Pairwise (fun a b => a.oldStart ≠ b.oldStart) → l₁ = l₂
  | [], l₂, hp, _, _, _ => hp.nil_eq
  | h₁ :: t₁, [], hp, _, _, _ => absurd hp.symm (by simp)
  | h₁ :: t₁, h₂ :: t₂, hp, hs₁, hs₂, hd => by
    rcases List.pairwise_cons.mp hs₁ with ⟨hs₁h, hs₁t⟩
    rcases List.pairwise_cons.mp hs₂ with ⟨hs₂h, hs₂t⟩
    rcases List.pairwise_cons.mp hd with ⟨hdh, hdt⟩
    by_cases heq : h₁ = h₂
    · subst heq
      have ht : List.Perm t₁ t₂ := hp.cons_inv
      rw [eq_of_perm_sorted_distinct t₁ t₂ ht hs₁t hs₂t hdt]
    · exfalso
      have h₁mem : h₁ ∈ h₂ :: t₂ := hp.mem_iff.mp (List.mem_cons_self _ _)
      have h₁t₂ : h₁ ∈ t₂ := by
        rcases List.mem_cons.mp h₁mem with hcase | hcase
        · exact absurd hcase heq
        · exact hcase
      have h₂mem : h₂ ∈ h₁ :: t₁ := hp.symm.mem_iff.mp (List.mem_cons_self _ _)
      have h₂t₁ : h₂ ∈ t₁ := by
        rcases List.mem_cons.mp h₂mem with hcase | hcase
        · exact absurd hcase.symm heq
        · exact hcase
      have hle₁ : h₁.oldStart ≤ h₂.oldStart := hs₂h h₁ h₁t₂
      have hle₂ : h₂.oldStart ≤ h₁.oldStart := hs₁h h₂ h₂t₁
      exact hdh h₂ h₂t₁ (le_antisymm hle₁ hle₂)

/-- With pairwise distinct `oldStart`, the stable sort of a permutation is
the same list. -/
theorem sortByOldStartDesc_perm_eq (l₁ l₂ : List DiffHunk) (hp : List.Perm l₁ l₂)
    (hd : l₁.Pairwise (fun a b => a.oldStart ≠ b.oldStart)) :
    sortByOldStartDesc l₁ = sortByOldStartDesc l₂ := by
  have hperm : List.Perm (sortByOldStartDesc l₁) (sortByOldStartDesc l₂) :=
    ((sortByOldStartDesc_perm l₁).trans hp).trans (sortByOldStartDesc_perm l₂).symm
  have hd₁ : (sortByOldStartDesc l₁).Pairwise (fun a b => a.oldStart ≠ b.oldStart) :=
    (List.Perm.pairwise_iff (fun hab => Ne.symm hab) (sortByOldStartDesc_perm l₁)).mpr hd
  exact eq_of_perm_sorted_distinct _ _ hperm (sortByOldStartDesc_pairwise l₁)
    (sortByOldStartDesc_pairwise l₂) hd₁

/-- Claim C9 (amended).  `applyHunksToFile` replays the hunks in descending
`oldStart` order (the sort is a permutation of the input, pairwise sorted by
descending `oldStart`), and for hunks with pairwise distinct `oldStart` the
result is invariant under any permutation of the input list.  (For hunks
sharing an `oldStart` the stable sort keeps the supplied order, so
permutation invariance fails — see the counterexample.) -/
theorem applyHunksToFile_perm_invariant (originalContent : String)
    (l₁ l₂ : List DiffHunk) (hp : List.Perm l₁ l₂)
    (hd : l₁.Pairwise (fun a b => a.oldStart ≠ b.oldStart)) :
    (sortByOldStartDesc l₁).Pairwise oldGE ∧ List.Perm (sortByOldStartDesc l₁) l₁ ∧
      applyHunksToFile originalContent l₁ = applyHunksToFile originalContent l₂ := by
  refine ⟨sortByOldStartDesc_pairwise l₁, sortByOldStartDesc_perm l₁, ?_⟩
  rw [applyHunksToFile, applyHunksToFile, sortByOldStartDesc_perm_eq l₁ l₂ hp hd]

/-- First insertion hunk at line 1 used by the C9 counterexample. -/
def tieHunkA : DiffHunk :=
  { file := "f", oldStart := 1, oldLines := 0, newStart := 1, newLines := 1,
    header := "@@ -1,0 +1,1 @@", lines := ["+A"] }

/-- Second insertion hunk at line 1 used by the C9 counterexample. -/
def tieHunkB : DiffHunk :=
  { file := "f", oldStart := 1, oldLines := 0, newStart := 2, newLines := 1,
    header := "@@ -1,0 +2,1 @@", lines := ["+B"] }

/-- Counterexample to claim C9 as stated: two hunks with the same `oldStart`
are kept in supplied order by the stable sort, so the two orders of the same
two hunks (a permutation of each other) produce different contents. -/
theorem applyHunksToFile_not_perm_invariant :
    List.Perm [tieHunkA, tieHunkB] [tieHunkB, tieHunkA] ∧
      applyHunksToFile "" [tieHunkA, tieHunkB] ≠ applyHunksToFile "" [tieHunkB, tieHunkA] :=
  ⟨List.Perm.swap tieHunkB tieHunkA [], by decide⟩

/-- Witness for C9 (amended): two hunks with distinct `oldStart` give the
same content in either order. -/
theorem applyHunksToFile_perm_invariant_witness :
    applyHunksToFile "a\nb\n" [tieHunkA, { tieHunkB with oldStart := 2 }] =
      applyHunksToFile "a\nb\n" [{ tieHunkB with oldStart := 2 }, tieHunkA] :=
  (applyHunksToFile_perm_invariant "a\nb\n" _ _
    (List.Perm.swap { tieHunkB with oldStart := 2 } tieHunkA [])
    (by decide)).2.2

/-! ## The round-trip law (claim C2) -/

theorem chainWF_cons_iff (o : List String) (p : Nat) (h : DiffHunk) (t : List DiffHunk) :
    chainWF o p (h :: t) = true ↔
      (1 ≤ h.oldStart ∧ p ≤ h.oldStart - 1 ∧ h.oldStart - 1 + h.oldLines ≤ o.length ∧
        (o.drop (h.oldStart - 1)).take h.oldLines = hunkOldSide h.lines ∧
        chainWF o (h.oldStart - 1 + h.oldLines) t = true) := by
  simp [chainWF, Bool.and_eq_true, decide_eq_true_iff, and_assoc]

theorem chainWF_mono (o : List String) (p p' : Nat) (l : List DiffHunk)
    (hpp : p' ≤ p) (hwf : chainWF o p l = true) : chainWF o p' l = true := by
  cases l with
  | nil => simp [chainWF]
  | cons h t =>
    rcases (chainWF_cons_iff o p h t).mp hwf with ⟨h1, h2, h3, h4, h5⟩
    exact (chainWF_cons_iff o p' h t).mpr ⟨h1, le_trans hpp h2, h3, h4, h5⟩

/-- Applying a hunk to the content reconstructed from the hunks after it
splices the hunk's new side into place: the prefix of the old lines before
the hunk is untouched because every remaining hunk lies strictly later. -/
theorem applyHunk_reconstructGo_step (o : List String) (h : DiffHunk) (t : List DiffHunk)
    (h1 : 1 ≤ h.oldStart)
    (_hbound : h.oldStart - 1 + h.oldLines ≤ o.length)
    (hchain : chainWF o (h.oldStart - 1 + h.oldLines) t = true) :
    applyHunk (reconstructGo o 0 t) h =
      o.take (h.oldStart - 1) ++ emitHunkLines h.lines ++
        reconstructGo o (h.oldStart - 1 + h.oldLines) t := by
  cases t with
  | nil =>
    simp only [reconstructGo, List.drop_zero]
    exact applyHunk_eq_take_emit_drop o h h1
  | cons h₂ t₂ =>
    rcases (chainWF_cons_iff o _ h₂ t₂).mp hchain with ⟨h₂1, h₂2, h₂3, _, _⟩
    set e₁ := h.oldStart - 1 + h.oldLines with he₁
    set s₂ := h₂.oldStart - 1 with hs₂
    have hs₂len : s₂ ≤ o.length := by omega
    have he₁s₂ : e₁ ≤ s₂ := h₂2
    have hs₁e₁ : h.oldStart - 1 ≤ e₁ := by omega
    have hx : reconstructGo o 0 (h₂ :: t₂) =
        o.take s₂ ++ (emitHunkLines h₂.lines ++ reconstructGo o (s₂ + h₂.oldLines) t₂) := by
      simp only [reconstructGo, List.drop_zero, Nat.sub_zero, List.append_assoc]
    have hlentake : (o.take s₂).length = s₂ := by
      simp [List.length_take, Nat.min_eq_left hs₂len]
    rw [applyHunk_eq_take_emit_drop _ h h1, hx]
    have htake : (o.take s₂ ++ (emitHunkLines h₂.lines ++ reconstructGo o (s₂ + h₂.oldLines) t₂)).take
        (h.oldStart - 1) = o.take (h.oldStart - 1) := by
      rw [List.take_append_eq_append_take, hlentake]
      have hz : h.oldStart - 1 - s₂ = 0 := by omega
      rw [hz, List.take_zero, List.append_nil, List.take_take,
        Nat.min_eq_left (by omega : h.oldStart - 1 ≤ s₂)]
    have hdrop : (o.take s₂ ++ (emitHunkLines h₂.lines ++ reconstructGo o (s₂ + h₂.oldLines) t₂)).drop
        e₁ = reconstructGo o e₁ (h₂ :: t₂) := by
      rw [List.drop_append_eq_append_drop, hlentake]
      have hz : e₁ - s₂ = 0 := by omega
      rw [hz, List.drop_zero, List.drop_take]
      simp only [reconstructGo, List.append_assoc]
    rw [htake, hdrop]

/-- Replaying an ascending well-formed hunk list back-to-front (the reverse
order) reconstructs the content the diff describes. -/
theorem foldl_applyHunk_reverse (o : List String) :
    ∀ l : List DiffHunk, chainWF o 0 l = true →
      (l.reverse).foldl applyHunk o = reconstructGo o 0 l
  | [], _ => by simp [reconstructGo]
  | h :: t, hwf => by
    rcases (chainWF_cons_iff o 0 h t).mp hwf with ⟨h1, _, h3, _, h5⟩
    have ih := foldl_applyHunk_reverse o t (chainWF_mono o _ 0 t (Nat.zero_le _) h5)
    have hfold : ((h :: t).reverse).foldl applyHunk o =
        applyHunk ((t.reverse).foldl applyHunk o) h := by
      simp [List.foldl_append]
    rw [hfold, ih, applyHunk_reconstructGo_step o h t h1 h3 h5]
    simp only [reconstructGo, List.drop_zero, Nat.sub_zero]

/-- With pairwise strictly ascending `oldStart`, the descending stable sort
is exactly the reverse of the list. -/
theorem sortByOldStartDesc_eq_reverse (l : List DiffHunk)
    (hasc : l.Pairwise (fun a b => a.oldStart < b.oldStart)) :
    sortByOldStartDesc l = l.reverse := by
  refine eq_of_perm_sorted_distinct _ _
    ((sortByOldStartDesc_perm l).trans (List.reverse_perm l).symm)
    (sortByOldStartDesc_pairwise l) ?_ ?_
  · exact List.pairwise_reverse.mpr (hasc.imp (fun hab => le_of_lt hab))
  · exact (List.Perm.pairwise_iff (fun hab => Ne.symm hab)
      (sortByOldStartDesc_perm l)).mpr (hasc.imp (fun hab => Nat.ne_of_lt hab))

/-- Claim C2 (amended).  For a file whose hunks are well formed against
`originalContent` — 1-based, ascending, non-overlapping, in bounds, old
sides matching — applying all of them in index order with
`applyHunksToFile` reproduces exactly the content the diff describes
(`reconstructGo`, the file's working content).  New-file hunks
(`oldStart = 0`) violate the law — see the counterexample. -/
theorem applyHunksToFile_roundTrip (originalContent : String) (hs : List DiffHunk)
    (hwf : chainWF (jsSplitLines originalContent) 0 hs = true)
    (hasc : hs.Pairwise (fun a b => a.oldStart < b.oldStart)) :
    applyHunksToFile originalContent hs =
      jsJoinLines (reconstructGo (jsSplitLines originalContent) 0 hs) := by
  rw [applyHunksToFile, sortByOldStartDesc_eq_reverse hs hasc,
    foldl_applyHunk_reverse (jsSplitLines originalContent) hs hwf]

/-- The new-file diff used by the C2 counterexample: git's diff for
creating `f.txt` with content `"hello\n"` against an empty original. -/
def newFileDiff : String :=
  "diff --git a/f.txt b/f.txt\n" ++
  "new file mode 100644\n" ++
  "index 0000000..ce01362\n" ++
  "--- /dev/null\n" ++
  "+++ b/f.txt\n" ++
  "@@ -0,0 +1 @@\n" ++
  "+hello"

/-- Counterexample to claim C2 as stated: for the parsed new-file diff of
`f.txt` (original content empty, working content `"hello\n"` — which is what
`reconstructGo` computes from the parsed hunks), `applyHunksToFile` produces
`"hello\n\n"`, one newline too many, because `applyHunk` re-copies the empty
original through the `oldStart = 0` suffix index `-1`. -/
theorem applyHunksToFile_roundTrip_counterexample :
    parseDiffIntoHunks newFileDiff =
      [{ file := "f.txt",
         hunks := [{ file := "f.txt", oldStart := 0, oldLines := 0, newStart := 1,
                     newLines := 1, header := "@@ -0,0 +1 @@", lines := ["+hello"] }] }] ∧
      jsJoinLines (reconstructGo (jsSplitLines "") 0
        ((parseDiffIntoHunks newFileDiff).headD { file := "", hunks := [] }).hunks) = "hello\n" ∧
      applyHunksToFile ""
        ((parseDiffIntoHunks newFileDiff).headD { file := "", hunks := [] }).hunks = "hello\n\n" ∧
      applyHunksToFile ""
          ((parseDiffIntoHunks newFileDiff).headD { file := "", hunks := [] }).hunks ≠
        jsJoinLines (reconstructGo (jsSplitLines "") 0
          ((parseDiffIntoHunks newFileDiff).headD { file := "", hunks := [] }).hunks) := by
  refine ⟨by decide, by decide, by decide, by decide⟩

/-- Witness for C2 (amended): a 3-line file with one well-formed hunk
round-trips exactly. -/
theorem applyHunksToFile_roundTrip_witness :
    applyHunksToFile "a\nb\nc\n" [exHunk] =
      jsJoinLines (reconstructGo (jsSplitLines "a\nb\nc\n") 0 [exHunk]) :=
  applyHunksToFile_roundTrip "a\nb\nc\n" [exHunk] (by decide) (by decide)

/-! ## File-section provenance in the parser (claim C6) -/

/-- `f` names a file section opened by a `+++ b/` line of the input. -/
def sectionFrom (inputLines : List String) (f : String) : Prop :=
  ∃ line, line ∈ inputLines ∧ jsStartsWith line "+++ b/" = true ∧ f = jsDrop line 6

/-- Invariant carried through the parser loop: every map key and the current
file come from a `+++ b/` line. -/
def parseInv (inputLines : List String) (acc : ParseAcc) : Prop :=
  (∀ p ∈ acc.fileHunksMap, sectionFrom inputLines p.1) ∧
    (∀ f, acc.currentFile = some f → sectionFrom inputLines f)

theorem mapSet_mem (k : String) (v : List DiffHunk) :
    ∀ (m : List (String × List DiffHunk)) (p : String × List DiffHunk),
      p ∈ mapSet m k v → p.1 = k ∨ ∃ q ∈ m, q.1 = p.1
  | [], p, hp => by
    simp only [mapSet, List.mem_singleton] at hp
    exact Or.inl (by rw [hp])
  | q :: t, p, hp => by
    by_cases hq : q.1 == k
    · simp only [mapSet, if_pos hq, List.mem_cons] at hp
      rcases hp with hp | hp
      · exact Or.inl (by rw [hp])
      · exact Or.inr ⟨p, List.mem_cons_of_mem q hp, rfl⟩
    · simp only [mapSet, if_neg hq, List.mem_cons] at hp
      rcases hp with hp | hp
      · exact Or.inr ⟨q, List.mem_cons_self q t, by rw [hp]⟩
      · rcases mapSet_mem k v t p hp with hc | ⟨r, hr, hr1⟩
        · exact Or.inl hc
        · exact Or.inr ⟨r, List.mem_cons_of_mem q hr, hr1⟩

theorem savePending_inv (inputLines : List String) (acc : ParseAcc)
    (hinv : parseInv inputLines acc) : parseInv inputLines (savePending acc) := by
  rcases hinv with ⟨hmap, hcur⟩
  unfold savePending
  cases hh : acc.currentHunk with
  | none => exact ⟨hmap, hcur⟩
  | some h =>
    cases hf : acc.currentFile with
    | none => exact ⟨hmap, hcur⟩
    | some f =>
      constructor
      · intro p hp
        rcases mapSet_mem f _ acc.fileHunksMap p hp with hc | ⟨q, hq, hq1⟩
        · rw [hc]; exact hcur f hf
        · rw [← hq1]; exact hmap q hq
      · intro f' hf'
        simp only [hf, Option.some.injEq] at hf'
        rw [← hf']
        exact hcur f hf

theorem parseLineStep_inv (inputLines : List String) (acc : ParseAcc) (line : String)
    (hline : line ∈ inputLines) (hinv : parseInv inputLines acc) :
    parseInv inputLines (parseLineStep acc line) := by
  unfold parseLineStep
  by_cases h1 : jsStartsWith line "diff --git "
  · simp only [h1, if_pos]
    have hs := savePending_inv inputLines acc hinv
    exact ⟨hs.1, fun f hf => hs.2 f (by simpa using hf)⟩
  · simp only [h1]
    by_cases h2 : jsStartsWith line "+++ b/"
    · simp only [h2, if_pos, if_true, Bool.false_eq_true, if_false]
      refine ⟨hinv.1, fun f hf => ?_⟩
      simp only [Option.some.injEq] at hf
      exact ⟨line, hline, h2, hf.symm⟩
    · simp only [h2]
      by_cases h3 : jsStartsWith line "@@"
      · simp only [h3, if_true, Bool.false_eq_true, if_false]
        have hs := savePending_inv inputLines acc hinv
        exact ⟨hs.1, fun f hf => hs.2 f (by simpa using hf)⟩
      · simp only [h3, Bool.false_eq_true, if_false]
        by_cases h4 : acc.currentHunk.isSome &&
            (jsStartsWith line "+" || jsStartsWith line "-" || jsStartsWith line " ")
        · simp only [h4, if_pos, if_true]
          exact ⟨hinv.1, fun f hf => hinv.2 f (by simpa using hf)⟩
        · simp only [h4, Bool.false_eq_true, if_false]
          exact hinv

theorem foldl_parseLineStep_inv (inputLines : List String) :
    ∀ (todo : List String) (acc : ParseAcc), (∀ l ∈ todo, l ∈ inputLines) →
      parseInv inputLines acc → parseInv inputLines (todo.foldl parseLineStep acc)
  | [], acc, _, hinv => hinv
  | l :: ls, acc, hmem, hinv => by
    refine foldl_parseLineStep_inv inputLines ls (parseLineStep acc l)
      (fun x hx => hmem x (List.mem_cons_of_mem l hx)) ?_
    exact parseLineStep_inv inputLines acc l (hmem l (List.mem_cons_self l ls)) hinv

/-- Claim C6 (amended).  Every file section in the output of
`parseDiffIntoHunks` is opened by an input line starting with `+++ b/` and
is named by the remainder of that line.  In particular a hunk content line
that contains `diff --git a/` anywhere, or even starts with it after a tag
character, never opens a section through the `diff --git ` detection — but
an added content line that starts with `+++ b/` does open a (phantom)
section, so the claim as frozen fails; see the counterexample. -/
theorem parseDiffIntoHunks_sections (diffOutput : String) :
    ∀ fh ∈ parseDiffIntoHunks diffOutput,
      ∃ line, line ∈ jsSplitLines diffOutput ∧
        jsStartsWith line "+++ b/" = true ∧ fh.file = jsDrop line 6 := by
  intro fh hfh
  have hinv0 : parseInv (jsSplitLines diffOutput) ⟨[], none, none, []⟩ := by
    constructor
    · intro p hp; simp at hp
    · intro f hf; simp at hf
  have hinv₁ := foldl_parseLineStep_inv (jsSplitLines diffOutput) (jsSplitLines diffOutput)
    ⟨[], none, none, []⟩ (fun _ hx => hx) hinv0
  have hinv₂ := savePending_inv _ _ hinv₁
  unfold parseDiffIntoHunks at hfh
  simp only [List.mem_map] at hfh
  rcases hfh with ⟨p, hp, hfeq⟩
  have := hinv₂.1 p hp
  rw [← hfeq]
  exact this

/-- The diff used by the C6 counterexample: its first hunk body contains the
added content line `+++ b/diff --git a/x` (added text `++ b/diff --git a/x`),
which documents diff syntax and contains `diff --git a/`. -/
def phantomDiff : String :=
  "diff --git a/doc.md b/doc.md\n" ++
  "index 1111111..2222222 100644\n" ++
  "--- a/doc.md\n" ++
  "+++ b/doc.md\n" ++
  "@@ -1,2 +1,3 @@\n" ++
  " line1\n" ++
  "+++ b/diff --git a/x\n" ++
  "@@ -9,1 +9,2 @@\n" ++
  " z\n" ++
  "+w"

/-- Counterexample to claim C6 as stated: the added content line at index 6
of `phantomDiff` contains (indeed consists of, after its tag) the string
`diff --git a/`, and the parser turns it into a phantom file section named
`diff --git a/x` — the real section `doc.md` even disappears, both hunks
being filed under the phantom name. -/
theorem parseDiffIntoHunks_phantom_counterexample :
    (jsSplitLines phantomDiff).get? 6 = some "+++ b/diff --git a/x" ∧
      jsStartsWith "+++ b/diff --git a/x" "+" = true ∧
      (parseDiffIntoHunks phantomDiff).map (fun fh => fh.file) = ["diff --git a/x"] := by
  refine ⟨by decide, by decide, by decide⟩

/-- Witness for C6 (amended): in the well-formed `exDiff`, the single output
section `f.txt` is opened by its `+++ b/f.txt` line. -/
theorem parseDiffIntoHunks_sections_witness :
    ∃ line, line ∈ jsSplitLines exDiff ∧
      jsStartsWith line "+++ b/" = true ∧
      ({ file := "f.txt", hunks := [exHunk] } : FileHunks).file = jsDrop line 6 :=
  parseDiffIntoHunks_sections exDiff { file := "f.txt", hunks := [exHunk] }
    (by decide)

/-! ## Coverage of the hunk registry (claim C1) -/

theorem filterMap_entries (f : String) (c : List String) :
    ∀ l : List (Nat × DiffHunk),
      (l.filterMap (fun p => if c.contains (mkKey f p.1) then none else some p.2)) =
        ((l.map (fun p => (f, p.1, p.2))).filter
          (fun e => !c.contains (mkKey e.1 e.2.1))).map (fun e => e.2.2)
  | [] => rfl
  | p :: t => by
    have ih := filterMap_entries f c t
    cases hc : c.contains (mkKey f p.1)
    · simp only [List.filterMap_cons, List.map_cons, List.filter_cons, hc, Bool.false_eq_true,
        if_false, Bool.not_false, if_true, List.map_cons, ih]
    · simp only [List.filterMap_cons, List.map_cons, List.filter_cons, hc, if_true,
        Bool.not_true, Bool.false_eq_true, if_false, ih]

theorem computeUncommitted_eq (c : List String) :
    ∀ allFileHunks : List FileHunks,
      computeUncommitted allFileHunks c =
        (restoredEntries allFileHunks c).map (fun e => e.2.2)
  | [] => rfl
  | fh :: t => by
    have ih := computeUncommitted_eq c t
    simp only [computeUncommitted, restoredEntries, registryEntries, List.foldr_cons,
      List.filter_append, List.map_append] at ih ⊢
    rw [filterMap_entries fh.file c fh.hunks.enum, ih]

/-- Claim C1.  In every run — any groups, any registry, any oracle — the
hunks the `finally` block replays are exactly the registry entries whose key
was never marked committed: together with the marked entries they cover the
whole registry, and no entry is both marked committed and replayed. -/
theorem processAll_coverage (oracle : RunOracle) (groups : List HunkCommitGroup)
    (allFileHunks : List FileHunks) (head wt : String → String) :
    (processAllHunkCommitGroups oracle groups allFileHunks head wt).uncommitted =
      (restoredEntries allFileHunks
        (processAllHunkCommitGroups oracle groups allFileHunks head wt).committedKeys).map
        (fun e => e.2.2) ∧
    (∀ e ∈ restoredEntries allFileHunks
        (processAllHunkCommitGroups oracle groups allFileHunks head wt).committedKeys,
      e ∈ registryEntries allFileHunks) ∧
    (∀ e ∈ registryEntries allFileHunks,
      ((processAllHunkCommitGroups oracle groups allFileHunks head wt).committedKeys.contains
          (mkKey e.1 e.2.1) = true ∧
        e ∉ restoredEntries allFileHunks
          (processAllHunkCommitGroups oracle groups allFileHunks head wt).committedKeys) ∨
      ((processAllHunkCommitGroups oracle groups allFileHunks head wt).committedKeys.contains
          (mkKey e.1 e.2.1) = false ∧
        e ∈ restoredEntries allFileHunks
          (processAllHunkCommitGroups oracle groups allFileHunks head wt).committedKeys)) := by
  refine ⟨computeUncommitted_eq _ allFileHunks, ?_, ?_⟩
  · intro e he
    exact List.mem_of_mem_filter he
  · intro e he
    by_cases hc : (processAllHunkCommitGroups oracle groups allFileHunks head wt).committedKeys.contains
        (mkKey e.1 e.2.1)
    · refine Or.inl ⟨hc, fun hmem => ?_⟩
      have := List.of_mem_filter hmem
      rw [hc] at this
      simp at this
    · refine Or.inr ⟨eq_false_of_ne_true hc, ?_⟩
      exact List.mem_filter.mpr ⟨he, by rw [eq_false_of_ne_true hc]; rfl⟩

/-- Second hunk of the registry used by the orchestrator witnesses. -/
def wHunk2 : DiffHunk :=
  { file := "f.txt", oldStart := 9, oldLines := 1, newStart := 9, newLines := 1,
    header := "@@ -9,1 +9,1 @@", lines := ["-z", "+w"] }

/-- Two-hunk registry used by the orchestrator witnesses. -/
def wAfh : List FileHunks := [{ file := "f.txt", hunks := [exHunk, wHunk2] }]

/-- One group referencing only hunk 0 of `f.txt`. -/
def wGroups : List HunkCommitGroup :=
  [{ number := 1, description := "g1", hunks := [⟨"f.txt", 0⟩], commitMessage := "m1" }]

/-- The all-successful oracle. -/
def wOracle : RunOracle := { group := fun _ => {} }

/-- Witness for C1 at a concrete run: one successful group committing hunk 0
of `f.txt` out of a two-hunk registry leaves exactly hunk 1 replayed. -/
theorem processAll_coverage_witness :
    ("f.txt", 1, wHunk2) ∈ registryEntries wAfh ∧
    (processAllHunkCommitGroups wOracle wGroups wAfh
        (fun _ => "") (fun _ => "")).committedKeys.contains (mkKey "f.txt" 1) = false ∧
    ("f.txt", 1, wHunk2) ∈ restoredEntries wAfh
      (processAllHunkCommitGroups wOracle wGroups wAfh
        (fun _ => "") (fun _ => "")).committedKeys := by
  have hmem : ("f.txt", 1, wHunk2) ∈ registryEntries wAfh := by decide
  have h := (processAll_coverage wOracle wGroups wAfh (fun _ => "") (fun _ => "")).2.2 _ hmem
  rcases h with ⟨hc, _⟩ | ⟨hc, hr⟩
  · exact absurd hc (by decide)
  · exact ⟨hmem, hc, hr⟩

/-! ## Restoration always runs (claim C3) -/

/-- Claim C3.  For every oracle — including any that makes a group iteration
throw mid-loop (`out.threw = true`) — the run's effect trace ends with the
full restoration suffix of the `finally` block, computed from whatever had
been committed when the loop stopped; in particular the last effect of every
run is the `restoreToWorkingState` write-back of the snapshots. -/
theorem processAll_restoration_always (oracle : RunOracle) (groups : List HunkCommitGroup)
    (allFileHunks : List FileHunks) (head wt : String → String) :
    (∃ pre, (processAllHunkCommitGroups oracle groups allFileHunks head wt).trace =
      pre ++ restorationTrace oracle (allFilesOf groups)
        (processAllHunkCommitGroups oracle groups allFileHunks head wt).uncommitted
        (processAllHunkCommitGroups oracle groups allFileHunks head wt).fileStates) ∧
    (processAllHunkCommitGroups oracle groups allFileHunks head wt).trace.getLast? =
      some (.restoreWorking (saveFileStates head wt (allFilesOf groups))
        oracle.finalRestoreOk) := by
  constructor
  · exact ⟨(runGroupLoop oracle allFileHunks groups 0).2.2.1, rfl⟩
  · show ((runGroupLoop oracle allFileHunks groups 0).2.2.1 ++
      restorationTrace oracle (allFilesOf groups) _ _).getLast? = _
    rw [restorationTrace]
    rw [show (runGroupLoop oracle allFileHunks groups 0).2.2.1 ++
        ([GitEffect.resetToHead (allFilesOf groups) oracle.finalResetOk] ++
          (if oracle.finalResetOk &&
              !(computeUncommitted allFileHunks
                (runGroupLoop oracle allFileHunks groups 0).2.1).isEmpty then
            [GitEffect.applyWorking (computeUncommitted allFileHunks
              (runGroupLoop oracle allFileHunks groups 0).2.1) oracle.finalApplyOk]
          else []) ++
          [GitEffect.restoreWorking (saveFileStates head wt (allFilesOf groups))
            oracle.finalRestoreOk]) =
        ((runGroupLoop oracle allFileHunks groups 0).2.2.1 ++
          ([GitEffect.resetToHead (allFilesOf groups) oracle.finalResetOk] ++
            (if oracle.finalResetOk &&
                !(computeUncommitted allFileHunks
                  (runGroupLoop oracle allFileHunks groups 0).2.1).isEmpty then
              [GitEffect.applyWorking (computeUncommitted allFileHunks
                (runGroupLoop oracle allFileHunks groups 0).2.1) oracle.finalApplyOk]
            else []))) ++
          [GitEffect.restoreWorking (saveFileStates head wt (allFilesOf groups))
            oracle.finalRestoreOk] by simp [List.append_assoc]]
    exact List.getLast?_concat _

/-! ## Semantics of the final restoration (claim C5) -/

theorem runTrace_append (head : String → String) :
    ∀ (a b : List GitEffect) (wt : String → String),
      runTrace head wt (a ++ b) = runTrace head (runTrace head wt a) b
  | [], _, _ => rfl
  | e :: es, b, wt => by
    simp only [List.cons_append, runTrace]
    exact runTrace_append head es b (stepEffect head wt e)

theorem find_saveFileStates (head wt : String → String) :
    ∀ (files : List String) (f : String), f ∈ files →
      (saveFileStates head wt files).find? (fun s => s.file == f) =
        some { file := f, originalContent := head f, workingContent := wt f }
  | [], f, h => absurd h (List.not_mem_nil f)
  | x :: t, f, h => by
    simp only [saveFileStates, List.map_cons, List.find?]
    cases hx : (x == f) with
    | true =>
      have hxf : x = f := eq_of_beq hx
      subst hxf
      rfl
    | false =>
      have hxf : x ≠ f := fun hcontra => by simp [hcontra] at hx
      have hft : f ∈ t := by
        rcases List.mem_cons.mp h with hcase | hcase
        · exact absurd hcase.symm hxf
        · exact hcase
      exact find_saveFileStates head wt t f hft

/-- Claim C5 (amended).  The last effect of every run writes every
snapshotted file — touched or not — back to its pre-run `workingContent`
verbatim, and writes nothing else: when that write does not itself throw,
every snapshotted file's final working-tree content equals its pre-run
working content, and the write-back step leaves any non-snapshotted file
unchanged.  (The frozen claim's exclusion of touched files fails: touched
files are overwritten too — see the counterexample.) -/
theorem processAll_restoreUntouched (oracle : RunOracle) (groups : List HunkCommitGroup)
    (allFileHunks : List FileHunks) (head wt : String → String)
    (hok : oracle.finalRestoreOk = true) :
    (∀ f ∈ allFilesOf groups,
      runTrace head wt
        (processAllHunkCommitGroups oracle groups allFileHunks head wt).trace f = wt f) ∧
    (∀ (wt2 : String → String) (b : Bool) (f : String),
      f ∉ ((processAllHunkCommitGroups oracle groups allFileHunks head wt).fileStates.map
        (fun s => s.file)) →
      stepEffect head wt2
        (.restoreWorking
          (processAllHunkCommitGroups oracle groups allFileHunks head wt).fileStates b) f =
        wt2 f) := by
  constructor
  · intro f hf
    show runTrace head wt ((runGroupLoop oracle allFileHunks groups 0).2.2.1 ++
      restorationTrace oracle (allFilesOf groups) _ (saveFileStates head wt (allFilesOf groups))) f = wt f
    rw [restorationTrace]
    rw [show (runGroupLoop oracle allFileHunks groups 0).2.2.1 ++
        ([GitEffect.resetToHead (allFilesOf groups) oracle.finalResetOk] ++
          (if oracle.finalResetOk &&
              !(computeUncommitted allFileHunks
                (runGroupLoop oracle allFileHunks groups 0).2.1).isEmpty then
            [GitEffect.applyWorking (computeUncommitted allFileHunks
              (runGroupLoop oracle allFileHunks groups 0).2.1) oracle.finalApplyOk]
          else []) ++
          [GitEffect.restoreWorking (saveFileStates head wt (allFilesOf groups))
            oracle.finalRestoreOk]) =
        ((runGroupLoop oracle allFileHunks groups 0).2.2.1 ++
          ([GitEffect.resetToHead (allFilesOf groups) oracle.finalResetOk] ++
            (if oracle.finalResetOk &&
                !(computeUncommitted allFileHunks
                  (runGroupLoop oracle allFileHunks groups 0).2.1).isEmpty then
              [GitEffect.applyWorking (computeUncommitted allFileHunks
                (runGroupLoop oracle allFileHunks groups 0).2.1) oracle.finalApplyOk]
            else []))) ++
          [GitEffect.restoreWorking (saveFileStates head wt (allFilesOf groups))
            oracle.finalRestoreOk] by simp [List.append_assoc]]
    rw [runTrace_append]
    show stepEffect head _ (.restoreWorking (saveFileStates head wt (allFilesOf groups))
      oracle.finalRestoreOk) f = wt f
    rw [hok]
    simp only [stepEffect, if_true]
    rw [find_saveFileStates head wt (allFilesOf groups) f hf]
  · intro wt2 b f hf
    have hnone : (processAllHunkCommitGroups oracle groups allFileHunks head wt).fileStates.find?
        (fun s => s.file == f) = none := by
      rw [List.find?_eq_none]
      intro s hs hcontra
      exact hf (List.mem_map.mpr ⟨s, hs, eq_of_beq hcontra⟩)
    cases b with
    | false => rfl
    | true =>
      simp only [stepEffect, if_true]
      rw [hnone]

/-- Oracle whose single group fails at the commit step (so HEAD provably
never advances during the run, keeping the fixed `head` model exact). -/
def cOracle : RunOracle := { group := fun _ => { commitOk := false } }

/-- HEAD contents for the counterexample run: `f.txt` is a new file, absent
at HEAD. -/
def cHead : String → String := fun _ => ""

/-- Pre-run working contents for the counterexample run: `f.txt` contains
`"hello\n"`, exactly what its parsed new-file diff describes. -/
def cWt : String → String := fun f => if f == "f.txt" then "hello\n" else ""

/-- Counterexample to claim C5 as stated: `f.txt` is touched by group 1
(it is in the group's processed files), after the reset-and-replay of the
`finally` block it holds `"hello\n\n"`, and the final
`restoreToWorkingState` then overwrites it — a touched file — with its
pre-run working content `"hello\n"`. -/
theorem processAll_overwrite_counterexample :
    ((processAllHunkCommitGroups cOracle wGroups (parseDiffIntoHunks newFileDiff)
        cHead cWt).results.map (fun r => r.files)) = [["f.txt"]] ∧
    runTrace cHead cWt (processAllHunkCommitGroups cOracle wGroups
        (parseDiffIntoHunks newFileDiff) cHead cWt).trace.dropLast "f.txt" = "hello\n\n" ∧
    runTrace cHead cWt (processAllHunkCommitGroups cOracle wGroups
        (parseDiffIntoHunks newFileDiff) cHead cWt).trace "f.txt" = "hello\n" ∧
    cWt "f.txt" = "hello\n" := by
  refine ⟨by decide, by decide, by decide, by decide⟩

/-- Witness for C5 (amended) at a concrete run: the snapshotted, touched
file `f.txt` ends at its pre-run working content. -/
theorem processAll_restoreUntouched_witness :
    runTrace cHead cWt (processAllHunkCommitGroups cOracle wGroups
      (parseDiffIntoHunks newFileDiff) cHead cWt).trace "f.txt" = cWt "f.txt" :=
  (processAll_restoreUntouched cOracle wGroups (parseDiffIntoHunks newFileDiff)
    cHead cWt rfl).1 "f.txt" (by decide)

/-! ## Per-group structure of a throw-free run (claims C4, C10) -/

/-- The commit results of a throw-free run, group by group: entry `j` is a
function of group `j`, the registry, and oracle slot `j` alone. -/
def groupResults (oracle : RunOracle) (afh : List FileHunks) :
    List HunkCommitGroup → Nat → List CommitResult
  | [], _ => []
  | g :: gs, i =>
    mkCommitResult g (processHunkCommitGroup (oracle.group i) g afh).1 ::
      groupResults oracle afh gs (i + 1)

/-- The committed keys of a throw-free run: only successful groups
contribute. -/
def groupKeys (oracle : RunOracle) (afh : List FileHunks) :
    List HunkCommitGroup → Nat → List String
  | [], _ => []
  | g :: gs, i =>
    (if (processHunkCommitGroup (oracle.group i) g afh).1.success then
      g.hunks.map (fun h => mkKey h.file h.hunkIndex)
    else []) ++ groupKeys oracle afh gs (i + 1)

/-- The loop trace of a throw-free run: each group's effects are followed by
an `unstageAll` attempt before the next group's effects begin. -/
def groupTrace (oracle : RunOracle) (afh : List FileHunks) :
    List HunkCommitGroup → Nat → List GitEffect
  | [], _ => []
  | g :: gs, i =>
    (processHunkCommitGroup (oracle.group i) g afh).2 ++
      [.unstage (oracle.group i).unstageOk] ++ groupTrace oracle afh gs (i + 1)

theorem runGroupLoop_noThrow (oracle : RunOracle) (afh : List FileHunks)
    (hnt : ∀ j, (oracle.group j).throws = false) :
    ∀ (gs : List HunkCommitGroup) (i : Nat),
      runGroupLoop oracle afh gs i =
        (groupResults oracle afh gs i, groupKeys oracle afh gs i,
          groupTrace oracle afh gs i, false)
  | [], _ => rfl
  | g :: gs, i => by
    have ih := runGroupLoop_noThrow oracle afh hnt gs (i + 1)
    simp only [runGroupLoop, hnt i, Bool.false_eq_true, if_false, ih,
      groupResults, groupKeys, groupTrace]

/-- A group's recorded success is exactly: some hunk resolved, and the
apply, stage and commit calls all succeeded. -/
theorem phc_success (oc : GroupOutcome) (g : HunkCommitGroup) (afh : List FileHunks) :
    (processHunkCommitGroup oc g afh).1.success =
      (!(collectHunks afh g.hunks).isEmpty && oc.applyOk && oc.stageOk && oc.commitOk) := by
  unfold processHunkCommitGroup
  cases he : (collectHunks afh g.hunks).isEmpty
  · cases ha : oc.applyOk
    · simp [he, ha]
    · cases hs : oc.stageOk
      · simp [he, ha, hs]
      · cases hc : oc.commitOk
        · simp [he, ha, hs, hc]
        · simp [he, ha, hs, hc]
  · simp [he]

theorem groupResults_get (oracle : RunOracle) (afh : List FileHunks) :
    ∀ (gs : List HunkCommitGroup) (i j : Nat),
      (groupResults oracle afh gs i).get? j =
        (gs.get? j).map
          (fun g => mkCommitResult g (processHunkCommitGroup (oracle.group (i + j)) g afh).1)
  | [], _, j => by simp [groupResults]
  | g :: gs, i, 0 => by simp [groupResults]
  | g :: gs, i, j + 1 => by
    simp only [groupResults, List.get?]
    rw [groupResults_get oracle afh gs (i + 1) j,
      show i + 1 + j = i + (j + 1) by omega]

theorem groupResults_length (oracle : RunOracle) (afh : List FileHunks) :
    ∀ (gs : List HunkCommitGroup) (i : Nat),
      (groupResults oracle afh gs i).length = gs.length
  | [], _ => rfl
  | g :: gs, i => by
    simp [groupResults, groupResults_length oracle afh gs (i + 1)]

/-- Claim C4.  In a throw-free run: the results list has one entry per group
in order; entry `j` is determined by group `j`, the registry and oracle slot
`j` alone (so a failed group leaves every other group's result untouched); a
group whose stage or commit call fails is recorded with `success := false`
and the loop continues; only successful groups mark keys committed; and
every registry hunk whose key is unmarked — in particular every hunk of a
failed group not rescued by another group — is replayed by the restoration
step. -/
theorem processAll_failure_isolation (oracle : RunOracle) (groups : List HunkCommitGroup)
    (afh : List FileHunks) (head wt : String → String)
    (hnt : ∀ j, (oracle.group j).throws = false) :
    (processAllHunkCommitGroups oracle groups afh head wt).results =
      groupResults oracle afh groups 0 ∧
    (processAllHunkCommitGroups oracle groups afh head wt).results.length = groups.length ∧
    (∀ j g, groups.get? j = some g →
      (processAllHunkCommitGroups oracle groups afh head wt).results.get? j =
        some (mkCommitResult g (processHunkCommitGroup (oracle.group j) g afh).1)) ∧
    (∀ j g, groups.get? j = some g →
      ((oracle.group j).stageOk = false ∨ (oracle.group j).commitOk = false) →
      ∃ r, (processAllHunkCommitGroups oracle groups afh head wt).results.get? j = some r ∧
        r.success = false) ∧
    (processAllHunkCommitGroups oracle groups afh head wt).committedKeys =
      groupKeys oracle afh groups 0 ∧
    (∀ e ∈ registryEntries afh,
      (processAllHunkCommitGroups oracle groups afh head wt).committedKeys.contains
          (mkKey e.1 e.2.1) = false →
      e.2.2 ∈ (processAllHunkCommitGroups oracle groups afh head wt).uncommitted) := by
  have hloop := runGroupLoop_noThrow oracle afh hnt groups 0
  have hres : (processAllHunkCommitGroups oracle groups afh head wt).results =
      groupResults oracle afh groups 0 := by
    show (runGroupLoop oracle afh groups 0).1 = _
    rw [hloop]
  have hkeys : (processAllHunkCommitGroups oracle groups afh head wt).committedKeys =
      groupKeys oracle afh groups 0 := by
    show (runGroupLoop oracle afh groups 0).2.1 = _
    rw [hloop]
  have hget : ∀ j g, groups.get? j = some g →
      (processAllHunkCommitGroups oracle groups afh head wt).results.get? j =
        some (mkCommitResult g (processHunkCommitGroup (oracle.group j) g afh).1) := by
    intro j g hg
    rw [hres, groupResults_get oracle afh groups 0 j, hg, Nat.zero_add]
    rfl
  refine ⟨hres, by rw [hres]; exact groupResults_length oracle afh groups 0, hget, ?_, hkeys, ?_⟩
  · intro j g hg hfail
    refine ⟨mkCommitResult g (processHunkCommitGroup (oracle.group j) g afh).1, hget j g hg, ?_⟩
    show (processHunkCommitGroup (oracle.group j) g afh).1.success = false
    rw [phc_success]
    rcases hfail with hf | hf
    · rw [hf]; simp
    · rw [hf]; simp
  · intro e he hc
    show e.2.2 ∈ computeUncommitted afh (runGroupLoop oracle afh groups 0).2.1
    rw [computeUncommitted_eq]
    refine List.mem_map.mpr ⟨e, ?_, rfl⟩
    refine List.mem_filter.mpr ⟨he, ?_⟩
    have : (runGroupLoop oracle afh groups 0).2.1 =
        (processAllHunkCommitGroups oracle groups afh head wt).committedKeys := rfl
    rw [this, hc]
    rfl

/-- Witness for C4 at a concrete run: the single group's commit fails, the
result records `success := false`, and the group's hunk is replayed. -/
theorem processAll_failure_isolation_witness :
    (∃ r, (processAllHunkCommitGroups cOracle wGroups wAfh
        (fun _ => "") (fun _ => "")).results.get? 0 = some r ∧ r.success = false) ∧
    ("f.txt", 0, exHunk).2.2 ∈ (processAllHunkCommitGroups cOracle wGroups wAfh
        (fun _ => "") (fun _ => "")).uncommitted := by
  have h := processAll_failure_isolation cOracle wGroups wAfh
    (fun _ => "") (fun _ => "") (fun _ => rfl)
  refine ⟨h.2.2.2.1 0
    { number := 1, description := "g1", hunks := [⟨"f.txt", 0⟩], commitMessage := "m1" }
    (by decide) (Or.inr rfl), ?_⟩
  exact h.2.2.2.2.2 ("f.txt", 0, exHunk) (by decide) (by decide)

/-- Two oracles that may differ only in the outcomes of `unstageAll` calls. -/
def agreeExceptUnstage (o o' : RunOracle) : Prop :=
  ∀ j, (o'.group j).resetOk = (o.group j).resetOk ∧
    (o'.group j).applyOk = (o.group j).applyOk ∧
    (o'.group j).stageOk = (o.group j).stageOk ∧
    (o'.group j).commitOk = (o.group j).commitOk ∧
    (o'.group j).throws = (o.group j).throws

theorem phc_congr (oc oc' : GroupOutcome) (g : HunkCommitGroup) (afh : List FileHunks)
    (h1 : oc'.resetOk = oc.resetOk) (h2 : oc'.applyOk = oc.applyOk)
    (h3 : oc'.stageOk = oc.stageOk) (h4 : oc'.commitOk = oc.commitOk) :
    processHunkCommitGroup oc' g afh = processHunkCommitGroup oc g afh := by
  unfold processHunkCommitGroup
  rw [h1, h2, h3, h4]

theorem runGroupLoop_agree (oracle oracle' : RunOracle) (afh : List FileHunks)
    (hag : agreeExceptUnstage oracle oracle') :
    ∀ (gs : List HunkCommitGroup) (i : Nat),
      (runGroupLoop oracle' afh gs i).1 = (runGroupLoop oracle afh gs i).1 ∧
      (runGroupLoop oracle' afh gs i).2.1 = (runGroupLoop oracle afh gs i).2.1 ∧
      (runGroupLoop oracle' afh gs i).2.2.2 = (runGroupLoop oracle afh gs i).2.2.2
  | [], _ => ⟨rfl, rfl, rfl⟩
  | g :: gs, i => by
    rcases hag i with ⟨h1, h2, h3, h4, h5⟩
    have ih := runGroupLoop_agree oracle oracle' afh hag gs (i + 1)
    have hphc := phc_congr (oracle.group i) (oracle'.group i) g afh h1 h2 h3 h4
    cases hth : (oracle.group i).throws
    · simp only [runGroupLoop, h5, hth, Bool.false_eq_true, if_false, hphc]
      exact ⟨by rw [ih.1], by rw [ih.2.1], by rw [ih.2.2]⟩
    · simp only [runGroupLoop, h5, hth, if_true]
      exact ⟨trivial, trivial, trivial⟩

theorem processAll_trace_def (oracle : RunOracle) (groups : List HunkCommitGroup)
    (afh : List FileHunks) (head wt : String → String) :
    (processAllHunkCommitGroups oracle groups afh head wt).trace =
      (runGroupLoop oracle afh groups 0).2.2.1 ++
        restorationTrace oracle (allFilesOf groups)
          (computeUncommitted afh (runGroupLoop oracle afh groups 0).2.1)
          (saveFileStates head wt (allFilesOf groups)) := rfl

theorem processAll_uncommitted_def (oracle : RunOracle) (groups : List HunkCommitGroup)
    (afh : List FileHunks) (head wt : String → String) :
    (processAllHunkCommitGroups oracle groups afh head wt).uncommitted =
      computeUncommitted afh (runGroupLoop oracle afh groups 0).2.1 := rfl

theorem processAll_fileStates_def (oracle : RunOracle) (groups : List HunkCommitGroup)
    (afh : List FileHunks) (head wt : String → String) :
    (processAllHunkCommitGroups oracle groups afh head wt).fileStates =
      saveFileStates head wt (allFilesOf groups) := rfl

/-- Claim C10.  In a throw-free run the effect trace interleaves an
`unstageAll` attempt after every group's effects (success or failure) and
before the next group's effects; and the outcomes of the `unstageAll` calls
affect nothing else: two oracles differing only there produce the same
results, the same committed keys, and the same thrown flag. -/
theorem processAll_unstage_between_groups (oracle : RunOracle)
    (groups : List HunkCommitGroup) (afh : List FileHunks) (head wt : String → String)
    (hnt : ∀ j, (oracle.group j).throws = false) :
    (processAllHunkCommitGroups oracle groups afh head wt).trace =
      groupTrace oracle afh groups 0 ++
        restorationTrace oracle (allFilesOf groups)
          (processAllHunkCommitGroups oracle groups afh head wt).uncommitted
          (processAllHunkCommitGroups oracle groups afh head wt).fileStates ∧
    (∀ oracle' : RunOracle, agreeExceptUnstage oracle oracle' →
      (processAllHunkCommitGroups oracle' groups afh head wt).results =
        (processAllHunkCommitGroups oracle groups afh head wt).results ∧
      (processAllHunkCommitGroups oracle' groups afh head wt).committedKeys =
        (processAllHunkCommitGroups oracle groups afh head wt).committedKeys ∧
      (processAllHunkCommitGroups oracle' groups afh head wt).threw =
        (processAllHunkCommitGroups oracle groups afh head wt).threw) := by
  have hloop := runGroupLoop_noThrow oracle afh hnt groups 0
  constructor
  · rw [processAll_trace_def, processAll_uncommitted_def, processAll_fileStates_def, hloop]
  · intro oracle' hag
    have h := runGroupLoop_agree oracle oracle' afh hag groups 0
    exact ⟨h.1, h.2.1, h.2.2⟩

/-- Oracle identical to `wOracle` except every `unstageAll` call fails. -/
def wOracleNoUnstage : RunOracle := { group := fun _ => { unstageOk := false } }

/-- Witness for C10 at a concrete run: failing every `unstageAll` call
changes neither the results nor the committed keys. -/
theorem processAll_unstage_between_groups_witness :
    (processAllHunkCommitGroups wOracleNoUnstage wGroups wAfh
        (fun _ => "") (fun _ => "")).results =
      (processAllHunkCommitGroups wOracle wGroups wAfh
        (fun _ => "") (fun _ => "")).results ∧
    (processAllHunkCommitGroups wOracleNoUnstage wGroups wAfh
        (fun _ => "") (fun _ => "")).committedKeys =
      (processAllHunkCommitGroups wOracle wGroups wAfh
        (fun _ => "") (fun _ => "")).committedKeys := by
  have hag : agreeExceptUnstage wOracle wOracleNoUnstage := by
    intro j
    exact ⟨rfl, rfl, rfl, rfl, rfl⟩
  have h := (processAll_unstage_between_groups wOracle wGroups wAfh
    (fun _ => "") (fun _ => "") (fun _ => rfl)).2 wOracleNoUnstage hag
  exact ⟨h.1, h.2.1⟩

/-! ## Injectivity of the committed-hunk keys

Marking `` `${file}:${hunkIndex}` `` for an unresolvable ref must not shadow
any registry entry, which requires the key map to be injective.  The decimal
digits of `Nat.repr` contain no colon, so the last colon of a key splits it
unambiguously. -/

theorem digitChar_ne_colon : ∀ m, m < 10 → Nat.digitChar m ≠ ':' := by decide

theorem digitChar_toNat : ∀ m, m < 10 → (Nat.digitChar m).toNat - 48 = m := by decide

theorem toDigitsCore_ne_colon :
    ∀ (fuel n : Nat) (ds : List Char), (∀ c ∈ ds, c ≠ ':') →
      ∀ c ∈ Nat.toDigitsCore 10 fuel n ds, c ≠ ':'
  | 0, _, _, hds => hds
  | fuel + 1, n, ds, hds => by
    rw [Nat.toDigitsCore]
    by_cases hdiv : n / 10 = 0
    · rw [if_pos hdiv]
      intro c hc
      rcases List.mem_cons.mp hc with hc | hc
      · rw [hc]
        exact digitChar_ne_colon (n % 10) (Nat.mod_lt n (by norm_num))
      · exact hds c hc
    · rw [if_neg hdiv]
      refine toDigitsCore_ne_colon fuel (n / 10) _ ?_
      intro c hc
      rcases List.mem_cons.mp hc with hc | hc
      · rw [hc]
        exact digitChar_ne_colon (n % 10) (Nat.mod_lt n (by norm_num))
      · exact hds c hc

theorem repr_ne_colon (n : Nat) : ∀ c ∈ (Nat.repr n).data, c ≠ ':' := by
  have hrepr : (Nat.repr n).data = Nat.toDigitsCore 10 (n + 1) n [] := rfl
  intro c hc
  rw [hrepr] at hc
  refine toDigitsCore_ne_colon (n + 1) n [] ?_ c hc
  intro c hc2
  exact absurd hc2 (List.not_mem_nil c)

theorem toDigitsCore_foldl :
    ∀ (fuel n : Nat) (ds : List Char), n < fuel →
      (Nat.toDigitsCore 10 fuel n ds).foldl (fun a c => a * 10 + (c.toNat - 48)) 0 =
        ds.foldl (fun a c => a * 10 + (c.toNat - 48)) n
  | 0, n, _, h => absurd h (Nat.not_lt_zero n)
  | fuel + 1, n, ds, h => by
    rw [Nat.toDigitsCore]
    have h1 : (Nat.digitChar (n % 10)).toNat - 48 = n % 10 :=
      digitChar_toNat (n % 10) (Nat.mod_lt n (by norm_num))
    by_cases hdiv : n / 10 = 0
    · rw [if_pos hdiv, List.foldl_cons, h1]
      congr 1
      omega
    · rw [if_neg hdiv]
      have hlt : n / 10 < fuel := by omega
      rw [toDigitsCore_foldl fuel (n / 10) _ hlt, List.foldl_cons, h1]
      congr 1
      omega

theorem natOfDigits_repr (n : Nat) : natOfDigits (Nat.repr n).data = n := by
  have hrepr : (Nat.repr n).data = Nat.toDigitsCore 10 (n + 1) n [] := rfl
  rw [natOfDigits, hrepr, toDigitsCore_foldl (n + 1) n [] (Nat.lt_succ_self n)]
  rfl

theorem repr_inj (m n : Nat) (h : Nat.repr m = Nat.repr n) : m = n := by
  have h2 := congrArg (fun s => natOfDigits s.data) h
  simpa [natOfDigits_repr] using h2

theorem append_colon_inj :
    ∀ (A₁ A₂ B₁ B₂ : List Char), (∀ c ∈ B₁, c ≠ ':') → (∀ c ∈ B₂, c ≠ ':') →
      A₁ ++ ':' :: B₁ = A₂ ++ ':' :: B₂ → A₁ = A₂ ∧ B₁ = B₂
  | [], [], B₁, B₂, _, _, h => ⟨rfl, by simpa using h⟩
  | [], a :: t, B₁, B₂, hB₁, _, h => by
    simp only [List.nil_append, List.cons_append, List.cons.injEq] at h
    exact absurd rfl (hB₁ ':'
      (by rw [h.2]; exact List.mem_append_right t (List.mem_cons_self ':' B₂)))
  | a :: t, [], B₁, B₂, _, hB₂, h => by
    simp only [List.nil_append, List.cons_append, List.cons.injEq] at h
    exact absurd rfl (hB₂ ':'
      (by rw [← h.2]; exact List.mem_append_right t (List.mem_cons_self ':' B₁)))
  | a₁ :: t₁, a₂ :: t₂, B₁, B₂, hB₁, hB₂, h => by
    simp only [List.cons_append, List.cons.injEq] at h
    have ih := append_colon_inj t₁ t₂ B₁ B₂ hB₁ hB₂ h.2
    exact ⟨by rw [h.1, ih.1], ih.2⟩

theorem mkKey_inj (f₁ f₂ : String) (i₁ i₂ : Nat) (h : mkKey f₁ i₁ = mkKey f₂ i₂) :
    f₁ = f₂ ∧ i₁ = i₂ := by
  have hdata : f₁.data ++ ':' :: (Nat.repr i₁).data =
      f₂.data ++ ':' :: (Nat.repr i₂).data := by
    have h2 := congrArg String.data h
    simpa [mkKey, String.data_append] using h2
  have hsplit := append_colon_inj f₁.data f₂.data (Nat.repr i₁).data (Nat.repr i₂).data
    (repr_ne_colon i₁) (repr_ne_colon i₂) hdata
  constructor
  · cases f₁
    cases f₂
    exact congrArg String.mk hsplit.1
  · refine repr_inj i₁ i₂ ?_
    cases hr₁ : Nat.repr i₁
    cases hr₂ : Nat.repr i₂
    rw [hr₁, hr₂] at hsplit
    exact congrArg String.mk hsplit.2

/-! ## The resolver drops invalid refs (claim C8) -/

theorem collectHunks_eq_filterMap (afh : List FileHunks) :
    ∀ refs : List HunkRef, collectHunks afh refs = refs.filterMap (resolveRef afh)
  | [] => rfl
  | r :: rs => by
    have ih := collectHunks_eq_filterMap afh rs
    simp only [collectHunks, List.filterMap_cons, resolveRef]
    cases hf : afh.find? (fun fh => fh.file == r.file) with
    | none => simpa using ih
    | some fh =>
      cases hh : fh.hunks[r.hunkIndex]? with
      | none => simpa [hh] using ih
      | some h => simpa [hh] using ih

theorem phc_noValid (oc : GroupOutcome) (g : HunkCommitGroup) (afh : List FileHunks)
    (h : collectHunks afh g.hunks = []) :
    processHunkCommitGroup oc g afh = ({ success := false, filesProcessed := [] }, []) := by
  unfold processHunkCommitGroup
  rw [h]
  rfl

theorem find_file_of_pairwise :
    ∀ afh : List FileHunks, afh.Pairwise (fun a b => a.file ≠ b.file) →
      ∀ fh ∈ afh, afh.find? (fun x => x.file == fh.file) = some fh
  | [], _, fh, hmem => absurd hmem (List.not_mem_nil fh)
  | x :: t, hpw, fh, hmem => by
    rcases List.pairwise_cons.mp hpw with ⟨hx, ht⟩
    rcases List.mem_cons.mp hmem with hcase | hcase
    · subst hcase
      simp [List.find?]
    · have hne : (x.file == fh.file) = false := by
        rw [beq_eq_false_iff_ne]
        exact hx fh hcase
      simp only [List.find?, hne]
      exact find_file_of_pairwise t ht fh hcase

theorem mem_registryEntries :
    ∀ (afh : List FileHunks) (e : String × Nat × DiffHunk),
      e ∈ registryEntries afh ↔
        ∃ fh ∈ afh, e.1 = fh.file ∧ (e.2.1, e.2.2) ∈ fh.hunks.enum
  | [], e => by simp [registryEntries]
  | fh :: t, e => by
    have ih := mem_registryEntries t e
    simp only [registryEntries, List.foldr_cons, List.mem_append, List.mem_map] at ih ⊢
    constructor
    · rintro (⟨p, hp, hpe⟩ | hmem)
      · refine ⟨fh, List.mem_cons_self fh t, ?_, ?_⟩
        · rw [← hpe]
        · rw [← hpe]
          simpa using hp
      · rcases ih.mp hmem with ⟨fh', hfh', h1, h2⟩
        exact ⟨fh', List.mem_cons_of_mem fh hfh', h1, h2⟩
    · rintro ⟨fh', hfh', h1, h2⟩
      rcases List.mem_cons.mp hfh' with hcase | hcase
      · subst hcase
        refine Or.inl ⟨(e.2.1, e.2.2), h2, ?_⟩
        rw [← h1]
      · exact Or.inr (ih.mpr ⟨fh', hcase, h1, h2⟩)

theorem resolveRef_of_registry (afh : List FileHunks)
    (hpw : afh.Pairwise (fun a b => a.file ≠ b.file)) (e : String × Nat × DiffHunk)
    (he : e ∈ registryEntries afh) :
    resolveRef afh ⟨e.1, e.2.1⟩ = some e.2.2 := by
  rcases (mem_registryEntries afh e).mp he with ⟨fh, hfh, h1, h2⟩
  unfold resolveRef
  show (afh.find? (fun x => x.file == e.1)).bind (fun fh => fh.hunks[e.2.1]?) = some e.2.2
  rw [h1, find_file_of_pairwise afh hpw fh hfh, Option.some_bind]
  exact List.mk_mem_enum_iff_getElem?.mp h2

/-- Claim C8.  Refs to missing files or out-of-range indices are dropped
rather than aborting: the collected hunks are exactly the resolvable refs
in order; a group with no valid hunks yields `success := false`, no touched
files and no effects; the run still records one result per group; and the
key an invalid ref would mark (when its group succeeds) differs from every
registry entry's key, so no registry hunk is thereby excluded from the
restored uncovered set. -/
theorem resolver_drops_invalid_refs (oracle : RunOracle) (groups : List HunkCommitGroup)
    (afh : List FileHunks) (head wt : String → String) (oc : GroupOutcome)
    (g : HunkCommitGroup)
    (hnt : ∀ j, (oracle.group j).throws = false)
    (hpw : afh.Pairwise (fun a b => a.file ≠ b.file)) :
    collectHunks afh g.hunks = g.hunks.filterMap (resolveRef afh) ∧
    (collectHunks afh g.hunks = [] →
      processHunkCommitGroup oc g afh = ({ success := false, filesProcessed := [] }, [])) ∧
    (processAllHunkCommitGroups oracle groups afh head wt).results.length = groups.length ∧
    (∀ r : HunkRef, resolveRef afh r = none →
      ∀ e ∈ registryEntries afh, mkKey e.1 e.2.1 ≠ mkKey r.file r.hunkIndex) := by
  refine ⟨collectHunks_eq_filterMap afh g.hunks, phc_noValid oc g afh, ?_, ?_⟩
  · show (runGroupLoop oracle afh groups 0).1.length = groups.length
    rw [runGroupLoop_noThrow oracle afh hnt groups 0]
    exact groupResults_length oracle afh groups 0
  · intro r hr e he heq
    rcases mkKey_inj e.1 r.file e.2.1 r.hunkIndex heq with ⟨h1, h2⟩
    have hres := resolveRef_of_registry afh hpw e he
    rw [h1, h2] at hres
    have hres2 : resolveRef afh r = some e.2.2 := hres
    rw [hr] at hres2
    exact Option.noConfusion hres2

/-- Group referencing a hunk index that does not exist in the registry. -/
def gBad : HunkCommitGroup :=
  { number := 2, description := "g2", hunks := [⟨"f.txt", 5⟩], commitMessage := "m2" }

/-- Witness for C8 at a concrete run: the dangling ref `f.txt#5` resolves to
nothing, the group with only that ref is skipped unsuccessfully with no
effects, the run still records one result per group, and the phantom key
`f.txt:5` shadows no registry entry. -/
theorem resolver_drops_invalid_refs_witness :
    collectHunks wAfh gBad.hunks = [] ∧
    processHunkCommitGroup {} gBad wAfh = ({ success := false, filesProcessed := [] }, []) ∧
    (processAllHunkCommitGroups wOracle wGroups wAfh
      (fun _ => "") (fun _ => "")).results.length = 1 ∧
    mkKey "f.txt" 0 ≠ mkKey "f.txt" 5 := by
  have h := resolver_drops_invalid_refs wOracle wGroups wAfh (fun _ => "") (fun _ => "")
    {} gBad (fun _ => rfl) (by decide)
  refine ⟨by decide, h.2.1 (by decide), h.2.2.1, ?_⟩
  exact h.2.2.2 ⟨"f.txt", 5⟩ (by decide) ("f.txt", 0, exHunk) (by decide)

end GitAI
